import Mathlib

set_option maxRecDepth 4000

/-!
Shallow embedding of the descriptive-statistics engine of
`src/programs/analysis/describe.py` (class `Describe`).

Modelling conventions:
* a column is a `List (Option ℚ)`; `none` is a missing entry (pandas `NaN`);
* a stored statistic value is an `Option ℚ`; `none` stands for a non-finite
  float (`nan` or `inf`) that the Python code silently stores;
* a computation that raises a Python exception (e.g. `ZeroDivisionError`
  from integer `0 / 0`, or a `KeyError` from indexing an empty series) is
  modelled by the `Option` monad at the statistic level: `none` is the
  exception escaping the constructor;
* Python `round(x, 6)` is round-half-to-even at six decimal digits;
* `np.sqrt` followed by `.round(6)` is modelled exactly on rationals by
  `sqrt6`, the round-half-even six-decimal approximation of the square root;
* the computational definitions use `Rat.ofInt` / `Rat.divInt` instead of
  the `↑` coercions so that concrete inputs evaluate by plain reduction.
-/

/-- Embedding of an integer into `ℚ` by the explicit constructor. -/
def intQ (z : ℤ) : ℚ := Rat.ofInt z

/-- Embedding of a natural number into `ℚ` by the explicit constructor. -/
def natQ (n : ℕ) : ℚ := Rat.ofInt (Int.ofNat n)

/-- Column entries as loaded by pandas: `none` is a missing value (NaN). -/
abbrev Column := List (Option ℚ)

/-- Present (non-missing) values of a column, in order (`Series.dropna`). -/
def present (c : Column) : List ℚ := c.filterMap id

/-- Round to the nearest integer, ties to even (Python `round` semantics on
the integer scale). -/
def rnd (q : ℚ) : ℤ :=
  let f := q.floor
  let r := q - intQ f
  if r < 1/2 then f
  else if 1/2 < r then f + 1
  else if f % 2 = 0 then f else f + 1

/-- Python `round(x, 6)`: round half to even at six decimal digits. -/
def round6 (q : ℚ) : ℚ := Rat.divInt (rnd (q * 1000000)) 1000000

/-- Integer square root (floor) by base-4 digit recursion; the fuel `64`
covers every argument below `4 ^ 64`, far beyond any value arising here. -/
def isqrtFuel : ℕ → ℕ → ℕ
  | 0, _ => 0
  | f + 1, n =>
    let r := isqrtFuel f (n / 4)
    if (2 * r + 1) * (2 * r + 1) ≤ n then 2 * r + 1 else 2 * r

/-- Floor of the square root of a natural number (all arguments arising
here are far below `4 ^ 64`). -/
def isqrt (n : ℕ) : ℕ := isqrtFuel 64 n

/-- Model of `np.sqrt(q).round(6)` for `q ≥ 0`: the six-decimal
round-half-even approximation of `√q`, computed exactly on rationals by
comparing `4 · q · 10^12` with `(2n+1)^2`. -/
def sqrt6 (q : ℚ) : ℚ :=
  let N : ℚ := q * 1000000000000
  let n : ℕ := isqrt N.floor.toNat
  if 4 * N < natQ ((2 * n + 1) * (2 * n + 1)) then Rat.divInt (Int.ofNat n) 1000000
  else if natQ ((2 * n + 1) * (2 * n + 1)) < 4 * N then Rat.divInt (Int.ofNat n + 1) 1000000
  else if n % 2 = 0 then Rat.divInt (Int.ofNat n) 1000000
  else Rat.divInt (Int.ofNat n + 1) 1000000

/-- Model of `Describe.get_count` for one column: number of present values. -/
def countStat (c : Column) : ℕ := (present c).length

/-- Model of `Describe.get_missing_values` for one column: percentage of
missing entries, rounded to 6 decimals.  `none` models the
`ZeroDivisionError` raised when the column has zero rows. -/
def missingStat (c : Column) : Option ℚ :=
  if c.length = 0 then none
  else some (round6 ((natQ c.length - natQ (countStat c)) / natQ c.length * 100))

/-- Model of `Describe.get_mean` for one column.  `none` models the
`ZeroDivisionError` raised by `sum(data_col) / count` when `count == 0`. -/
def meanStat (c : Column) : Option ℚ :=
  if countStat c = 0 then none
  else some (round6 ((present c).sum / natQ (countStat c)))

/-- Model of `Describe.get_var` for one column.  The outer `none` models the
`ZeroDivisionError` of the internal mean when `count == 0`; the inner
`none` models the silent float NaN produced by `0.0 / 0` when `count == 1`
(Bessel division by `count - 1`). -/
def varStat (c : Column) : Option (Option ℚ) :=
  if countStat c = 0 then none
  else if countStat c = 1 then some none
  else
    let m : ℚ := (present c).sum / natQ (countStat c)
    some (some (round6 (((present c).map (fun x => (x - m) * (x - m))).sum /
      (natQ (countStat c) - 1))))

/-- Model of `Describe.get_std` for one column: `np.sqrt(var).round(6)` on
the stored (already rounded) variance; NaN in, NaN out, and a negative
argument also yields NaN. -/
def stdStat (v : Option ℚ) : Option ℚ :=
  match v with
  | none => none
  | some q => if q < 0 then none else some (sqrt6 q)

/-- One step of the `Describe.get_min` scan: missing entries are skipped,
and a comparison against a NaN current minimum is always false, so a NaN
state absorbs.  An update stores the candidate rounded to 6 decimals. -/
def minStep (curr : Option ℚ) (x : Option ℚ) : Option ℚ :=
  match x with
  | none => curr
  | some i =>
    match curr with
    | none => none
    | some m => if i < m then some (round6 i) else some m

/-- Model of `Describe.get_min` for one column: the state is seeded with the
raw first entry (`self.data[col][0]`, possibly NaN) and the scan runs over
all entries.  The outer `none` models the `KeyError` on a zero-row column. -/
def minStat (c : Column) : Option (Option ℚ) :=
  match c with
  | [] => none
  | x0 :: _ => some (c.foldl minStep x0)

/-- One step of the `Describe.get_max` scan (mirror of `minStep`). -/
def maxStep (curr : Option ℚ) (x : Option ℚ) : Option ℚ :=
  match x with
  | none => curr
  | some i =>
    match curr with
    | none => none
    | some m => if m < i then some (round6 i) else some m

/-- Model of `Describe.get_max` for one column. -/
def maxStat (c : Column) : Option (Option ℚ) :=
  match c with
  | [] => none
  | x0 :: _ => some (c.foldl maxStep x0)

/-- Sorted ascending sequence of present values
(`dropna().sort_values().reset_index(drop=True)`). -/
def sortedPresent (c : Column) : List ℚ :=
  List.insertionSort (· ≤ ·) (present c)

/-- Virtual index `value = (count − 1) * p` computed by
`Describe.get_25` / `get_50` / `get_75`. -/
def vIdx (p : ℚ) (c : Column) : ℚ := (natQ (countStat c) - 1) * p

/-- Lower lookup position of the interpolation branch: Python `int(value)`
truncates toward zero. -/
def loIdx (p : ℚ) (c : Column) : ℤ :=
  if vIdx p c < 0 then (vIdx p c).ceil else (vIdx p c).floor

/-- Model of `Describe.get_25` / `get_50` / `get_75` for one column at
percentile `p`: when `vIdx` is an integer, the sorted value at that
position; otherwise linear interpolation between positions `int(v)` and
`int(v) + 1`; the result is rounded to 6 decimals.  `none` models the
`KeyError` raised by an out-of-range lookup (reachable exactly when
`count == 0`). -/
def quantileStat (p : ℚ) (c : Column) : Option ℚ :=
  if (vIdx p c).den = 1 then
    match (sortedPresent c).get? (vIdx p c).num.toNat with
    | some q => some (round6 q)
    | none => none
  else
    match (sortedPresent c).get? (loIdx p c).toNat,
          (sortedPresent c).get? ((loIdx p c).toNat + 1) with
    | some a, some b =>
      some (round6 (a * (1 - (vIdx p c - intQ (loIdx p c))) +
        b * (vIdx p c - intQ (loIdx p c))))
    | _, _ => none

/-- Inner loop of `Describe.get_mode`: state `(mode, count, max_count)`
with the previous element, scanning the remaining sorted values.  A run is
compared only when it closes, and only a strictly longer run replaces the
current candidate; the final run is never compared. -/
def modeAux (mode : ℚ) (cnt maxCnt : ℕ) : ℚ → List ℚ → ℚ
  | _, [] => mode
  | prev, cur :: rest =>
    if cur = prev then modeAux mode (cnt + 1) maxCnt cur rest
    else if maxCnt < cnt then modeAux prev 0 cnt cur rest
    else modeAux mode 0 maxCnt cur rest

/-- Model of `Describe.get_mode` for one column: seed the candidate with the
first sorted value, then scan adjacent pairs.  `none` models the `KeyError`
on `data_col[0]` when the column has zero present values. -/
def modeStat (c : Column) : Option ℚ :=
  match sortedPresent c with
  | [] => none
  | x0 :: rest => some (modeAux x0 0 0 x0 rest)

/-- Model of `Describe.get_kurtosis` for one column, taking the stored
(rounded) `mean` and `std`.  The outer `none` models the
`ZeroDivisionError` of `sum(...) / count` when `count == 0`; the inner
`none` models the non-finite float stored when `std` is NaN or zero. -/
def kurtosisStat (c : Column) (m : ℚ) (s : Option ℚ) : Option (Option ℚ) :=
  if countStat c = 0 then none
  else
    match s with
    | none => some none
    | some sv =>
      if sv = 0 then some none
      else some (some (round6
        (((present c).map (fun x =>
          ((x - m) / sv) * ((x - m) / sv) * (((x - m) / sv) * ((x - m) / sv)))).sum /
          natQ (countStat c))))

/-- Per-column statistics record, in the key order built by `Describe`. -/
structure Stats where
  count : ℕ
  missingPct : ℚ
  mean : ℚ
  var : Option ℚ
  std : Option ℚ
  min : Option ℚ
  q25 : ℚ
  q50 : ℚ
  q75 : ℚ
  iqr : ℚ
  max : Option ℚ
  mode : ℚ
  kurtosis : Option ℚ
deriving DecidableEq, Repr

/-- Model of the per-column part of `Describe.__init__`: runs every
statistic pass for one column in the source's call order; `none` is a
Python exception escaping the constructor. -/
def describeColumn (c : Column) : Option Stats := do
  let cnt := countStat c
  let mp ← missingStat c
  let m ← meanStat c
  let v ← varStat c
  let s := stdStat v
  let mn ← minStat c
  let q1 ← quantileStat (1/4) c
  let q2 ← quantileStat (1/2) c
  let q3 ← quantileStat (3/4) c
  let mx ← maxStat c
  let md ← modeStat c
  let k ← kurtosisStat c m s
  some { count := cnt, missingPct := mp, mean := m, var := v, std := s,
         min := mn, q25 := q1, q50 := q2, q75 := q3, iqr := q3 - q1,
         max := mx, mode := md, kurtosis := k }

/-- Raw table column: a name, a declared-numeric flag (pandas dtype), and
the entries. -/
structure RawColumn where
  name : String
  numeric : Bool
  entries : Column
deriving DecidableEq

/-- Model of the column selection in `Describe.__init__`: first
`select_dtypes(include=[np.number])`, then the dict comprehension dropping
the label column `"Hogwarts House"`. -/
def selectColumns (tbl : List RawColumn) : List RawColumn :=
  (tbl.filter (fun c => c.numeric)).filter (fun c => c.name != "Hogwarts House")

/-- Report construction over the selected columns; a failure in any
column's statistics yields `none` for the whole run. -/
def describeCols : List RawColumn → Option (List (String × Stats))
  | [] => some []
  | col :: rest => do
    let r ← describeColumn col.entries
    let tail ← describeCols rest
    some ((col.name, r) :: tail)

/-- Model of `Describe.__init__` end to end: build the report for every
qualifying column; a Python exception in any column's statistics aborts the
whole constructor, so the result is `none` and no report exists at all. -/
def describe (tbl : List RawColumn) : Option (List (String × Stats)) :=
  describeCols (selectColumns tbl)

theorem intQ_eq_cast (z : ℤ) : intQ z = (z : ℚ) := rfl

theorem natQ_eq_cast (n : ℕ) : natQ n = (n : ℚ) := rfl

theorem divInt_eq_div (a b : ℤ) : Rat.divInt a b = (a : ℚ) / (b : ℚ) :=
  Rat.divInt_eq_div a b

theorem ratFloor_eq_floor (q : ℚ) : q.floor = ⌊q⌋ := rfl

example : present [none, some 5, none, some 3] = [5, 3] := by with_unfolding_all rfl
example : round6 (2/3) = 666667/1000000 := by with_unfolding_all rfl
example : round6 (1/2 * 1/1000000) = 0 := by with_unfolding_all rfl
example : sqrt6 1 = 1 := by with_unfolding_all rfl
example : sqrt6 (5/2) = 1581139/1000000 := by with_unfolding_all rfl
example : quantileStat (1/2) [some 1, some 2, some 3] = some 2 := by with_unfolding_all rfl
example : quantileStat (1/4) [some 1, some 2, some 3] = some (3/2) := by with_unfolding_all rfl
example : quantileStat (1/4) [] = none := by with_unfolding_all rfl
example : modeStat [some 1, some 2, some 2] = some 1 := by with_unfolding_all rfl
example : modeStat [some 1, some 1, some 2, some 2, some 3] = some 1 := by with_unfolding_all rfl
example : minStat [none, some 5] = some none := by with_unfolding_all rfl
example : varStat [some 7] = some none := by with_unfolding_all rfl
example : describeColumn [some 7] = some
    ⟨1, 0, 7, none, none, some 7, 7, 7, 7, 0, some 7, 7, none⟩ := by
  with_unfolding_all rfl
example : describe [⟨"A", true, [some 1, some 2]⟩, ⟨"B", true, [none]⟩] = none := by
  with_unfolding_all rfl
example : describeColumn [some 1, some 2, some 3] = some
    ⟨3, 0, 2, some 1, some 1, some 1, 3/2, 2, 5/2, 1, some 3, 1,
     some (666667/1000000)⟩ := by
  with_unfolding_all rfl

/-! Basic properties of the rounding function. -/

theorem present_cons_none (xs : Column) : present (none :: xs) = present xs := rfl

theorem present_cons_some (i : ℚ) (xs : Column) :
    present (some i :: xs) = i :: present xs := rfl

theorem rnd_eq (q : ℚ) :
    rnd q = if Int.fract q < 1/2 then ⌊q⌋
      else if 1/2 < Int.fract q then ⌊q⌋ + 1
      else if ⌊q⌋ % 2 = 0 then ⌊q⌋ else ⌊q⌋ + 1 := by
  unfold rnd
  simp only [ratFloor_eq_floor, intQ_eq_cast, Int.self_sub_floor]

theorem le_rnd (q : ℚ) : ⌊q⌋ ≤ rnd q := by
  rw [rnd_eq]
  split_ifs <;> omega

theorem rnd_le (q : ℚ) : rnd q ≤ ⌊q⌋ + 1 := by
  rw [rnd_eq]
  split_ifs <;> omega

theorem rnd_mono {q r : ℚ} (h : q ≤ r) : rnd q ≤ rnd r := by
  have hf : ⌊q⌋ ≤ ⌊r⌋ := Int.floor_mono h
  rcases lt_or_eq_of_le hf with hlt | heq
  · have h1 := rnd_le q
    have h2 := le_rnd r
    omega
  · have hq : Int.fract q ≤ Int.fract r := by
      rw [← Int.self_sub_floor, ← Int.self_sub_floor, ← heq]
      exact sub_le_sub_right h _
    rw [rnd_eq, rnd_eq, ← heq]
    split_ifs <;> first | omega | linarith

theorem round6_mono {q r : ℚ} (h : q ≤ r) : round6 q ≤ round6 r := by
  unfold round6
  rw [divInt_eq_div, divInt_eq_div]
  have hr : rnd (q * 1000000) ≤ rnd (r * 1000000) :=
    rnd_mono (mul_le_mul_of_nonneg_right h (by norm_num))
  have hc : ((rnd (q * 1000000) : ℤ) : ℚ) ≤ ((rnd (r * 1000000) : ℤ) : ℚ) :=
    Int.cast_le.mpr hr
  have hpos : (0 : ℚ) < ((1000000 : ℤ) : ℚ) := by norm_num
  exact (div_le_div_right hpos).mpr hc

/-! Facts about the left fold computing a minimum and a maximum. -/

theorem foldl_min_le_init (l : List ℚ) (m0 : ℚ) : l.foldl min m0 ≤ m0 := by
  induction l generalizing m0 with
  | nil => simp
  | cons x xs ih => exact le_trans (ih (min m0 x)) (min_le_left _ _)

theorem foldl_min_le_mem {l : List ℚ} {y : ℚ} (m0 : ℚ) (hy : y ∈ l) :
    l.foldl min m0 ≤ y := by
  induction l generalizing m0 with
  | nil => cases hy
  | cons x xs ih =>
    rcases List.mem_cons.mp hy with rfl | hy2
    · exact le_trans (foldl_min_le_init xs (min m0 y)) (min_le_right _ _)
    · exact ih (min m0 x) hy2

theorem foldl_min_mem (l : List ℚ) (m0 : ℚ) :
    l.foldl min m0 = m0 ∨ l.foldl min m0 ∈ l := by
  induction l generalizing m0 with
  | nil => exact Or.inl rfl
  | cons x xs ih =>
    rcases ih (min m0 x) with h | h
    · rcases le_total m0 x with hc | hc
      · left
        rw [List.foldl_cons, h, min_eq_left hc]
      · right
        rw [List.foldl_cons, h, min_eq_right hc]
        exact List.mem_cons_self x xs
    · right
      exact List.mem_cons_of_mem x h

theorem foldl_max_ge_init (l : List ℚ) (m0 : ℚ) : m0 ≤ l.foldl max m0 := by
  induction l generalizing m0 with
  | nil => simp
  | cons x xs ih => exact le_trans (le_max_left _ _) (ih (max m0 x))

theorem foldl_max_ge_mem {l : List ℚ} {y : ℚ} (m0 : ℚ) (hy : y ∈ l) :
    y ≤ l.foldl max m0 := by
  induction l generalizing m0 with
  | nil => cases hy
  | cons x xs ih =>
    rcases List.mem_cons.mp hy with rfl | hy2
    · exact le_trans (le_max_right _ _) (foldl_max_ge_init xs (max m0 y))
    · exact ih (max m0 x) hy2

theorem foldl_max_mem (l : List ℚ) (m0 : ℚ) :
    l.foldl max m0 = m0 ∨ l.foldl max m0 ∈ l := by
  induction l generalizing m0 with
  | nil => exact Or.inl rfl
  | cons x xs ih =>
    rcases ih (max m0 x) with h | h
    · rcases le_total x m0 with hc | hc
      · left
        rw [List.foldl_cons, h, max_eq_left hc]
      · right
        rw [List.foldl_cons, h, max_eq_right hc]
        exact List.mem_cons_self x xs
    · right
      exact List.mem_cons_of_mem x h

theorem foldl_minStep_eq (l : Column) (m0 : ℚ)
    (h : ∀ x ∈ present l, round6 x = x) :
    l.foldl minStep (some m0) = some ((present l).foldl min m0) := by
  induction l generalizing m0 with
  | nil => rfl
  | cons x xs ih =>
    cases x with
    | none =>
      rw [present_cons_none] at h ⊢
      exact ih m0 h
    | some i =>
      rw [present_cons_some] at h ⊢
      have hi : round6 i = i := h i (List.mem_cons_self i _)
      have hrest : ∀ y ∈ present xs, round6 y = y :=
        fun y hy => h y (List.mem_cons_of_mem i hy)
      have hstep : minStep (some m0) (some i) = some (min m0 i) := by
        by_cases hc : i < m0
        · simp [minStep, hc, hi, min_eq_right (le_of_lt hc)]
        · simp [minStep, hc, min_eq_left (le_of_not_lt hc)]
      rw [List.foldl_cons, hstep, List.foldl_cons, ih (min m0 i) hrest]

theorem foldl_maxStep_eq (l : Column) (m0 : ℚ)
    (h : ∀ x ∈ present l, round6 x = x) :
    l.foldl maxStep (some m0) = some ((present l).foldl max m0) := by
  induction l generalizing m0 with
  | nil => rfl
  | cons x xs ih =>
    cases x with
    | none =>
      rw [present_cons_none] at h ⊢
      exact ih m0 h
    | some i =>
      rw [present_cons_some] at h ⊢
      have hi : round6 i = i := h i (List.mem_cons_self i _)
      have hrest : ∀ y ∈ present xs, round6 y = y :=
        fun y hy => h y (List.mem_cons_of_mem i hy)
      have hstep : maxStep (some m0) (some i) = some (max m0 i) := by
        by_cases hc : m0 < i
        · simp [maxStep, hc, hi, max_eq_right (le_of_lt hc)]
        · simp [maxStep, hc, max_eq_left (le_of_not_lt hc)]
      rw [List.foldl_cons, hstep, List.foldl_cons, ih (max m0 i) hrest]

theorem minStat_correct (x0 : ℚ) (rest : Column)
    (h : ∀ x ∈ present (some x0 :: rest), round6 x = x) :
    ∃ m, minStat (some x0 :: rest) = some (some m) ∧
      m ∈ present (some x0 :: rest) ∧
      ∀ y ∈ present (some x0 :: rest), m ≤ y := by
  refine ⟨(present (some x0 :: rest)).foldl min x0, ?_, ?_, ?_⟩
  · show some ((some x0 :: rest).foldl minStep (some x0)) = _
    rw [foldl_minStep_eq (some x0 :: rest) x0 h]
  · rcases foldl_min_mem (present (some x0 :: rest)) x0 with he | he
    · rw [he, present_cons_some]
      exact List.mem_cons_self x0 _
    · exact he
  · exact fun y hy => foldl_min_le_mem x0 hy

theorem maxStat_correct (x0 : ℚ) (rest : Column)
    (h : ∀ x ∈ present (some x0 :: rest), round6 x = x) :
    ∃ M, maxStat (some x0 :: rest) = some (some M) ∧
      M ∈ present (some x0 :: rest) ∧
      ∀ y ∈ present (some x0 :: rest), y ≤ M := by
  refine ⟨(present (some x0 :: rest)).foldl max x0, ?_, ?_, ?_⟩
  · show some ((some x0 :: rest).foldl maxStep (some x0)) = _
    rw [foldl_maxStep_eq (some x0 :: rest) x0 h]
  · rcases foldl_max_mem (present (some x0 :: rest)) x0 with he | he
    · rw [he, present_cons_some]
      exact List.mem_cons_self x0 _
    · exact he
  · exact fun y hy => foldl_max_ge_mem x0 hy

/-! Linear-interpolation quantiles: mathematical form and bounds. -/

/-- Value selected by the linear-interpolation rule at virtual index `v`
over a sorted sequence `s`; at an integer `v` this is the entry at `v`. -/
def interpVal (s : List ℚ) (v : ℚ) : ℚ :=
  (1 - Int.fract v) * s.getD ⌊v⌋.toNat 0 + Int.fract v * s.getD (⌊v⌋.toNat + 1) 0

/-- Quantile computation as worded by the specification (§4.5): sort
ascending, take `v = (count − 1) · p`, read the sorted value at an integer
`v` and otherwise interpolate `sorted[lo] · (1 − frac) + sorted[hi] · frac`
with `frac = v − lo`, then round to 6 decimals. -/
def specQuantile (p : ℚ) (xs : List ℚ) : ℚ :=
  if Int.fract (((xs.length : ℚ) - 1) * p) = 0 then
    round6 ((List.insertionSort (· ≤ ·) xs).getD ⌊((xs.length : ℚ) - 1) * p⌋.toNat 0)
  else
    round6 ((List.insertionSort (· ≤ ·) xs).getD ⌊((xs.length : ℚ) - 1) * p⌋.toNat 0 *
        (1 - Int.fract (((xs.length : ℚ) - 1) * p)) +
      (List.insertionSort (· ≤ ·) xs).getD (⌊((xs.length : ℚ) - 1) * p⌋.toNat + 1) 0 *
        Int.fract (((xs.length : ℚ) - 1) * p))

/-- Rounded interpolated value the quantile code computes on a nonempty
column (see `quantileStat_eq_interp`). -/
def qVal (p : ℚ) (c : Column) : ℚ := round6 (interpVal (sortedPresent c) (vIdx p c))

/-- Arithmetic mean of a list (specification wording "mean of ... over
present values"). -/
def listMean (l : List ℚ) : ℚ := l.sum / (l.length : ℚ)

theorem sortedPresent_perm (c : Column) :
    (sortedPresent c).Perm (present c) :=
  List.perm_insertionSort (· ≤ ·) (present c)

theorem sortedPresent_length (c : Column) :
    (sortedPresent c).length = countStat c :=
  (sortedPresent_perm c).length_eq

theorem sortedPresent_sorted (c : Column) :
    List.Sorted (· ≤ ·) (sortedPresent c) :=
  List.sorted_insertionSort (· ≤ ·) (present c)

/-- Bounds for the virtual index `v = (count − 1) · p` used by the
quantile lookups, for any `0 ≤ p < 1`. -/
theorem vIndex_bounds {n : ℕ} {p v : ℚ} (hn : 1 ≤ n) (hp0 : 0 ≤ p) (hp1 : p < 1)
    (hv : v = ((n : ℚ) - 1) * p) :
    0 ≤ v ∧ v ≤ (n : ℚ) - 1 ∧
      (v.den = 1 → 0 ≤ v.num ∧ v.num ≤ (n : ℤ) - 1) ∧
      (v.den ≠ 1 → 0 ≤ ⌊v⌋ ∧ ⌊v⌋ + 1 ≤ (n : ℤ) - 1) := by
  have hn1 : (1 : ℚ) ≤ (n : ℚ) := by exact_mod_cast hn
  have hv0 : 0 ≤ v := by
    rw [hv]
    exact mul_nonneg (by linarith) hp0
  have hvle : v ≤ (n : ℚ) - 1 := by
    rw [hv]
    exact mul_le_of_le_one_right (by linarith) (le_of_lt hp1)
  refine ⟨hv0, hvle, ?_, ?_⟩
  · intro hden
    have hzint : (v.num : ℚ) = v := (Rat.den_eq_one_iff v).mp hden
    constructor
    · exact_mod_cast hzint ▸ hv0
    · have : (v.num : ℚ) ≤ ((n : ℤ) - 1 : ℤ) := by
        push_cast
        rw [hzint]
        exact hvle
      exact_mod_cast this
  · intro hden
    have hvlt : v < (n : ℚ) - 1 := by
      rcases lt_or_eq_of_le hvle with h' | h'
      · exact h'
      · exfalso
        apply hden
        have : v = (((n : ℤ) - 1 : ℤ) : ℚ) := by
          rw [h']
          push_cast
          ring
        rw [this, Rat.den_intCast]
    constructor
    · exact Int.floor_nonneg.mpr hv0
    · have : ⌊v⌋ < (n : ℤ) - 1 := by
        rw [Int.floor_lt]
        push_cast
        exact hvlt
      omega

theorem vIdx_cast (p : ℚ) (c : Column) :
    vIdx p c = ((countStat c : ℚ) - 1) * p := rfl

/-- The quantile code path, for a nonempty column and `0 ≤ p < 1`, returns
the rounded interpolated value; in particular no lookup fails. -/
theorem quantileStat_eq_interp (p : ℚ) (c : Column) (hp0 : 0 ≤ p) (hp1 : p < 1)
    (h : countStat c ≠ 0) :
    quantileStat p c =
      some (round6 (interpVal (sortedPresent c) (vIdx p c))) := by
  have hn : 1 ≤ countStat c := Nat.one_le_iff_ne_zero.mpr h
  obtain ⟨hv0, hvle, hint, hnonint⟩ :=
    vIndex_bounds (v := vIdx p c) hn hp0 hp1 (vIdx_cast p c)
  have hlen := sortedPresent_length c
  by_cases hden : (vIdx p c).den = 1
  · obtain ⟨hnum0, hnumle⟩ := hint hden
    have hidx : (vIdx p c).num.toNat < (sortedPresent c).length := by
      rw [hlen]
      omega
    have hzint : ((vIdx p c).num : ℚ) = vIdx p c := (Rat.den_eq_one_iff _).mp hden
    have hfr : Int.fract (vIdx p c) = 0 := by
      rw [← hzint]
      exact Int.fract_intCast _
    have hfl : ⌊vIdx p c⌋ = (vIdx p c).num := by
      rw [← hzint]
      exact Int.floor_intCast _
    unfold quantileStat
    rw [if_pos hden, List.get?_eq_get hidx]
    unfold interpVal
    rw [hfr, hfl, List.getD_eq_get?, List.get?_eq_get hidx]
    simp
  · obtain ⟨hfl0, hflle⟩ := hnonint hden
    have hlo : loIdx p c = ⌊vIdx p c⌋ := by
      unfold loIdx
      rw [if_neg (not_lt.mpr hv0), ratFloor_eq_floor]
    have hi1 : ⌊vIdx p c⌋.toNat < (sortedPresent c).length := by
      rw [hlen]
      omega
    have hi2 : ⌊vIdx p c⌋.toNat + 1 < (sortedPresent c).length := by
      rw [hlen]
      omega
    have hsub : vIdx p c - intQ ⌊vIdx p c⌋ = Int.fract (vIdx p c) := by
      rw [intQ_eq_cast, Int.self_sub_floor]
    unfold quantileStat
    rw [if_neg hden, hlo, List.get?_eq_get hi1, List.get?_eq_get hi2, hsub]
    unfold interpVal
    rw [List.getD_eq_get?, List.getD_eq_get?, List.get?_eq_get hi1,
      List.get?_eq_get hi2]
    simp only [Option.getD_some]
    congr 1
    congr 1
    ring

/-! Monotonicity of the interpolated value over a sorted sequence. -/

theorem sorted_getD_mono {s : List ℚ} (hs : List.Sorted (· ≤ ·) s) {i j : ℕ}
    (hij : i ≤ j) (hj : j < s.length) : s.getD i 0 ≤ s.getD j 0 := by
  have hi : i < s.length := lt_of_le_of_lt hij hj
  rw [List.getD_eq_get?, List.getD_eq_get?, List.get?_eq_get hi,
    List.get?_eq_get hj]
  simp only [Option.getD_some]
  rcases eq_or_lt_of_le hij with rfl | hlt
  · exact le_refl _
  · exact hs.rel_get_of_lt hlt

theorem floor_succ_le_of_fract_ne {w : ℚ} {B : ℤ} (hw : w ≤ (B : ℚ))
    (hf : Int.fract w ≠ 0) : ⌊w⌋ + 1 ≤ B := by
  have h1 : ⌊w⌋ ≤ B := by
    have h2 := Int.floor_mono hw
    rwa [Int.floor_intCast] at h2
  rcases lt_or_eq_of_le h1 with h | h
  · omega
  · exfalso
    apply hf
    have hwB : (B : ℚ) ≤ w := by
      rw [← h]
      exact Int.floor_le w
    have hw2 : w = (B : ℚ) := le_antisymm hw hwB
    rw [hw2]
    exact Int.fract_intCast B

theorem interp_mono {s : List ℚ} (hs : List.Sorted (· ≤ ·) s) {v w : ℚ}
    (h0 : 0 ≤ v) (hvw : v ≤ w) (hw : w ≤ (s.length : ℚ) - 1) :
    interpVal s v ≤ interpVal s w := by
  have hw0 : 0 ≤ w := le_trans h0 hvw
  have hlen1 : 1 ≤ s.length := by
    rcases Nat.eq_zero_or_pos s.length with h | h
    · exfalso
      rw [h] at hw
      norm_num at hw
      linarith
    · exact h
  have hwB : w ≤ (((s.length : ℤ) - 1 : ℤ) : ℚ) := by
    push_cast
    exact hw
  have hfv0 : 0 ≤ ⌊v⌋ := Int.floor_nonneg.mpr h0
  have hfvw : ⌊v⌋ ≤ ⌊w⌋ := Int.floor_mono hvw
  have hfwB : ⌊w⌋ ≤ (s.length : ℤ) - 1 := by
    have h2 := Int.floor_mono hwB
    rwa [Int.floor_intCast] at h2
  have hjlt : ⌊w⌋.toNat < s.length := by omega
  have hfr0v : 0 ≤ Int.fract v := Int.fract_nonneg v
  have hfr1v : Int.fract v < 1 := Int.fract_lt_one v
  have hfr0w : 0 ≤ Int.fract w := Int.fract_nonneg w
  have hfr1w : Int.fract w < 1 := Int.fract_lt_one w
  rcases eq_or_lt_of_le hfvw with heq | hlt
  · by_cases hfr : Int.fract w = 0
    · have hveq : v = w := by
        have h2 : w = (⌊w⌋ : ℚ) := by
          have h3 := Int.self_sub_floor w
          rw [hfr] at h3
          linarith
        have h4 : (⌊v⌋ : ℚ) ≤ v := Int.floor_le v
        have h5 : ((⌊v⌋ : ℤ) : ℚ) = ((⌊w⌋ : ℤ) : ℚ) := by
          rw [heq]
        linarith
      rw [hveq]
    · have hfw0 : 0 ≤ ⌊w⌋ := heq ▸ hfv0
      have hsucc : ⌊w⌋ + 1 ≤ (s.length : ℤ) - 1 := floor_succ_le_of_fract_ne hwB hfr
      have hi2 : ⌊w⌋.toNat + 1 < s.length := by omega
      have hAB : s.getD ⌊w⌋.toNat 0 ≤ s.getD (⌊w⌋.toNat + 1) 0 :=
        sorted_getD_mono hs (Nat.le_succ _) hi2
      have hfrvw : Int.fract v ≤ Int.fract w := by
        rw [← Int.self_sub_floor, ← Int.self_sub_floor, heq]
        exact sub_le_sub_right hvw _
      unfold interpVal
      rw [heq]
      nlinarith [mul_nonneg (sub_nonneg.mpr hfrvw)
        (sub_nonneg.mpr hAB)]
  · have hi2 : ⌊v⌋.toNat + 1 ≤ ⌊w⌋.toNat := by omega
    have hi2lt : ⌊v⌋.toNat + 1 < s.length := lt_of_le_of_lt hi2 hjlt
    have hAB : s.getD ⌊v⌋.toNat 0 ≤ s.getD (⌊v⌋.toNat + 1) 0 :=
      sorted_getD_mono hs (Nat.le_succ _) hi2lt
    have step1 : interpVal s v ≤ s.getD (⌊v⌋.toNat + 1) 0 := by
      unfold interpVal
      nlinarith [mul_le_mul_of_nonneg_left hAB (le_of_lt (sub_pos.mpr hfr1v))]
    have step2 : s.getD (⌊v⌋.toNat + 1) 0 ≤ s.getD ⌊w⌋.toNat 0 :=
      sorted_getD_mono hs hi2 hjlt
    have step3 : s.getD ⌊w⌋.toNat 0 ≤ interpVal s w := by
      by_cases hfr : Int.fract w = 0
      · unfold interpVal
        rw [hfr]
        ring_nf
        exact le_refl _
      · have hsucc : ⌊w⌋ + 1 ≤ (s.length : ℤ) - 1 :=
          floor_succ_le_of_fract_ne hwB hfr
        have hj2 : ⌊w⌋.toNat + 1 < s.length := by omega
        have hAB2 : s.getD ⌊w⌋.toNat 0 ≤ s.getD (⌊w⌋.toNat + 1) 0 :=
          sorted_getD_mono hs (Nat.le_succ _) hj2
        unfold interpVal
        nlinarith [mul_le_mul_of_nonneg_left hAB2 hfr0w]
    exact le_trans step1 (le_trans step2 step3)

theorem interp_zero (s : List ℚ) : interpVal s 0 = s.getD 0 0 := by
  unfold interpVal
  rw [Int.fract_zero, Int.floor_zero]
  norm_num

theorem interp_last (s : List ℚ) (h1 : 1 ≤ s.length) :
    interpVal s ((s.length : ℚ) - 1) = s.getD (s.length - 1) 0 := by
  have hcast : ((s.length : ℚ) - 1) = (((s.length : ℤ) - 1 : ℤ) : ℚ) := by
    push_cast
    ring
  rw [hcast]
  unfold interpVal
  rw [Int.fract_intCast, Int.floor_intCast]
  have ht : ((s.length : ℤ) - 1).toNat = s.length - 1 := by omega
  rw [ht]
  ring

theorem sorted_getD_le_mem {s : List ℚ} (hs : List.Sorted (· ≤ ·) s) {y : ℚ}
    (hy : y ∈ s) : s.getD 0 0 ≤ y := by
  obtain ⟨i, hi⟩ := List.mem_iff_get.mp hy
  rw [← hi]
  have h2 := sorted_getD_mono hs (Nat.zero_le i.val) i.isLt
  rw [List.getD_eq_get? s i.val, List.get?_eq_get i.isLt] at h2
  simpa using h2

theorem sorted_mem_le_getD_last {s : List ℚ} (hs : List.Sorted (· ≤ ·) s)
    {y : ℚ} (hy : y ∈ s) : y ≤ s.getD (s.length - 1) 0 := by
  obtain ⟨i, hi⟩ := List.mem_iff_get.mp hy
  rw [← hi]
  have hlast : s.length - 1 < s.length := by
    have := i.isLt
    omega
  have h2 := sorted_getD_mono hs (by omega : i.val ≤ s.length - 1) hlast
  rw [List.getD_eq_get? s i.val, List.get?_eq_get i.isLt] at h2
  simpa using h2

theorem getD_zero_mem {s : List ℚ} (h1 : 1 ≤ s.length) : s.getD 0 0 ∈ s := by
  have h0 : 0 < s.length := h1
  rw [List.getD_eq_get?, List.get?_eq_get h0]
  exact List.get_mem s 0 h0

theorem getD_last_mem {s : List ℚ} (h1 : 1 ≤ s.length) :
    s.getD (s.length - 1) 0 ∈ s := by
  have h0 : s.length - 1 < s.length := by omega
  rw [List.getD_eq_get?, List.get?_eq_get h0]
  exact List.get_mem s _ h0

theorem specQuantile_eq_interp (p : ℚ) (xs : List ℚ) :
    specQuantile p xs =
      round6 (interpVal (List.insertionSort (· ≤ ·) xs)
        (((xs.length : ℚ) - 1) * p)) := by
  unfold specQuantile interpVal
  by_cases hf : Int.fract (((xs.length : ℚ) - 1) * p) = 0
  · rw [if_pos hf, hf]
    congr 1
    ring
  · rw [if_neg hf]
    congr 1
    ring

theorem describeColumn_fields (c : Column) (r : Stats)
    (h : describeColumn c = some r) :
    missingStat c = some r.missingPct ∧
    meanStat c = some r.mean ∧
    varStat c = some r.var ∧
    r.std = stdStat r.var ∧
    minStat c = some r.min ∧
    quantileStat (1/4) c = some r.q25 ∧
    quantileStat (1/2) c = some r.q50 ∧
    quantileStat (3/4) c = some r.q75 ∧
    r.iqr = r.q75 - r.q25 ∧
    maxStat c = some r.max ∧
    modeStat c = some r.mode ∧
    kurtosisStat c r.mean r.std = some r.kurtosis ∧
    r.count = countStat c := by
  unfold describeColumn at h
  simp only [Option.bind_eq_bind, Option.bind_eq_some] at h
  obtain ⟨mp, hmp, m, hm, v, hv, mn, hmn, q1, hq1, q2, hq2, q3, hq3, mx, hmx,
    md, hmd, k, hk, hr⟩ := h
  obtain rfl := Option.some.inj hr
  exact ⟨hmp, hm, hv, rfl, hmn, hq1, hq2, hq3, rfl, hmx, hmd, hk, rfl⟩

/-- C10: for every column with `count ≥ 1` present values and each `p` in
`{0.25, 0.50, 0.75}`, every index used by the percentile lookup into the
sorted present-value sequence is in bounds — an integral virtual index `v`
satisfies `0 ≤ v ≤ count − 1`, and otherwise `⌊v⌋` and `⌊v⌋ + 1` are both
at most `count − 1` — so no lookup into the sorted sequence can fail; for
`count = 0` the lookup is the reachable error branch. -/
theorem quantile_index_bounds (c : Column) (p : ℚ)
    (hp : p = 1/4 ∨ p = 1/2 ∨ p = 3/4) :
    (countStat c ≠ 0 →
      ((vIdx p c).den = 1 →
        0 ≤ (vIdx p c).num ∧ (vIdx p c).num ≤ (countStat c : ℤ) - 1) ∧
      ((vIdx p c).den ≠ 1 →
        0 ≤ ⌊vIdx p c⌋ ∧ ⌊vIdx p c⌋ + 1 ≤ (countStat c : ℤ) - 1) ∧
      quantileStat p c ≠ none) ∧
    (countStat c = 0 → quantileStat p c = none) := by
  have hp0 : 0 ≤ p := by rcases hp with rfl | rfl | rfl <;> norm_num
  have hp1 : p < 1 := by rcases hp with rfl | rfl | rfl <;> norm_num
  constructor
  · intro h0
    have hn : 1 ≤ countStat c := Nat.one_le_iff_ne_zero.mpr h0
    obtain ⟨hv0, hvle, hint, hnonint⟩ :=
      vIndex_bounds (v := vIdx p c) hn hp0 hp1 (vIdx_cast p c)
    refine ⟨hint, hnonint, ?_⟩
    rw [quantileStat_eq_interp p c hp0 hp1 h0]
    exact Option.some_ne_none _
  · intro h0
    have hpres : present c = [] := List.length_eq_zero.mp h0
    have hsorted : sortedPresent c = [] := by
      rw [sortedPresent, hpres]
      rfl
    have hv : vIdx p c = -p := by
      rw [vIdx_cast, h0]
      norm_num
    have hden : (vIdx p c).den ≠ 1 := by
      rw [hv]
      rcases hp with rfl | rfl | rfl <;> with_unfolding_all decide
    unfold quantileStat
    rw [if_neg hden, hsorted]
    rfl

/-- C10 witness: on the column `[1, 2]` with `p = 0.5` the lookup
succeeds. -/
theorem quantile_index_bounds_witness :
    quantileStat (1/2) [some 1, some 2] ≠ none :=
  ((quantile_index_bounds [some 1, some 2] (1/2)
    (Or.inr (Or.inl rfl))).1 (by with_unfolding_all decide)).2.2

/-- C1: for every column with at least one present value and every
`0 ≤ p < 1` (covering `p ∈ {0.25, 0.50, 0.75}`), the reported percentile
equals the specification's linear-interpolation formula over the ascending
sorted present values (integral virtual index reads the sorted value,
fractional index interpolates, result rounded to 6 decimals); in
particular, a single present value is returned (rounded) for every `p`. -/
theorem quantile_matches_spec (c : Column) (p : ℚ) (hp0 : 0 ≤ p) (hp1 : p < 1)
    (h : present c ≠ []) :
    quantileStat p c = some (specQuantile p (present c)) ∧
    ∀ x : ℚ, present c = [x] → quantileStat p c = some (round6 x) := by
  have hcnt : countStat c ≠ 0 := fun h0 => h (List.length_eq_zero.mp h0)
  have h1 := quantileStat_eq_interp p c hp0 hp1 hcnt
  constructor
  · rw [h1, specQuantile_eq_interp]
    with_unfolding_all rfl
  · intro x hx
    have hc1 : countStat c = 1 := by
      rw [countStat, hx]
      rfl
    have hv : vIdx p c = 0 := by
      rw [vIdx_cast, hc1]
      norm_num
    have hs : sortedPresent c = [x] := by
      rw [sortedPresent, hx]
      rfl
    rw [h1, hv, interp_zero, hs]
    rfl

/-- C1 witness: the column `[3]` at `p = 0.25`. -/
theorem quantile_matches_spec_witness :
    quantileStat (1/4) [some 3] = some (specQuantile (1/4) (present [some 3])) :=
  (quantile_matches_spec [some 3] (1/4) (by norm_num) (by norm_num)
    (by with_unfolding_all decide)).1

/-- C2: on the column `[1, 2, 2]` the most frequent present value is `2`
(two occurrences against one), yet `get_mode` reports `1`: the loop only
compares a run against the maximum when the run closes, so the final run —
here the longest — is never compared.  This refutes the claim that the
final-run case is handled. -/
theorem mode_final_run_bug :
    modeStat [some 1, some 2, some 2] = some 1 ∧
    (present [some 1, some 2, some 2]).count 2 = 2 ∧
    (present [some 1, some 2, some 2]).count 1 = 1 := by
  with_unfolding_all decide

/-- C3 counterexample: a missing first entry seeds the scan state with NaN,
every comparison against NaN is false, and the reported minimum stays NaN
even though the column has the present value `5`. -/
theorem min_nan_first_entry_counterexample :
    minStat [none, some 5] = some none ∧ present [none, some 5] = [5] := by
  with_unfolding_all decide

/-- C3 (amended): provided the first entry is present and every present
value is exactly representable at 6 decimals, the reported min (resp. max)
is the least (resp. greatest) of the present values only, computed by the
single-pass fold; missing non-first entries are skipped and do not affect
the result. -/
theorem min_max_first_present (x0 : ℚ) (rest : Column)
    (hrep : ∀ x ∈ present (some x0 :: rest), round6 x = x) :
    minStat (some x0 :: rest) =
      some (some ((present (some x0 :: rest)).foldl min x0)) ∧
    maxStat (some x0 :: rest) =
      some (some ((present (some x0 :: rest)).foldl max x0)) ∧
    (present (some x0 :: rest)).foldl min x0 ∈ present (some x0 :: rest) ∧
    (present (some x0 :: rest)).foldl max x0 ∈ present (some x0 :: rest) ∧
    ∀ y ∈ present (some x0 :: rest),
      (present (some x0 :: rest)).foldl min x0 ≤ y ∧
      y ≤ (present (some x0 :: rest)).foldl max x0 := by
  refine ⟨?_, ?_, ?_, ?_, ?_⟩
  · show some ((some x0 :: rest).foldl minStep (some x0)) = _
    rw [foldl_minStep_eq _ x0 hrep]
  · show some ((some x0 :: rest).foldl maxStep (some x0)) = _
    rw [foldl_maxStep_eq _ x0 hrep]
  · rcases foldl_min_mem (present (some x0 :: rest)) x0 with he | he
    · rw [he, present_cons_some]
      exact List.mem_cons_self x0 _
    · exact he
  · rcases foldl_max_mem (present (some x0 :: rest)) x0 with he | he
    · rw [he, present_cons_some]
      exact List.mem_cons_self x0 _
    · exact he
  · exact fun y hy => ⟨foldl_min_le_mem x0 hy, foldl_max_ge_mem x0 hy⟩

/-- C3 witness: the column `[2, NaN, 1]` has its first entry present, and
the reported minimum is the fold over present values. -/
theorem min_max_first_present_witness :
    minStat [some 2, none, some 1] =
      some (some ((present [some 2, none, some 1]).foldl min 2)) :=
  (min_max_first_present 2 [none, some 1] (by with_unfolding_all decide)).1

/-- C6: on a column with the single present value `7`, the code stores NaN
for `var` (float `0.0 / 0`), NaN for `std` (`sqrt(nan)`), and NaN for
`kurtosis` (division by NaN), without raising any error: the full record is
built with the three NaN fields, which refutes the claim that an explicit
`InsufficientSampleError` is reported. -/
theorem single_value_silent_nan :
    describeColumn [some 7] =
      some ⟨1, 0, 7, none, none, some 7, 7, 7, 7, 0, some 7, 7, none⟩ := by
  with_unfolding_all rfl

/-- C7: with column `A = [1, 2]` and column `B` all-missing, the mean pass
raises `ZeroDivisionError` on `B` and the constructor aborts: the whole
report is lost (`none`), even though `A` alone computes fine — which
refutes the claimed partial-failure semantics. -/
theorem partial_failure_aborts_all :
    describe [⟨"A", true, [some 1, some 2]⟩, ⟨"B", true, [none]⟩] = none ∧
    describeColumn [some 1, some 2] ≠ none := by
  constructor
  · with_unfolding_all rfl
  · with_unfolding_all decide

theorem describeCols_names (l : List RawColumn) (rep : List (String × Stats))
    (h : describeCols l = some rep) :
    rep.map Prod.fst = l.map RawColumn.name := by
  induction l generalizing rep with
  | nil =>
    obtain rfl := Option.some.inj h
    rfl
  | cons col rest ih =>
    unfold describeCols at h
    simp only [Option.bind_eq_bind, Option.bind_eq_some] at h
    obtain ⟨r, hr, tail, htail, hrep⟩ := h
    obtain rfl := Option.some.inj hrep
    simp [ih tail htail]

/-- C8: for every column the constructor successfully describes, the stored
`iqr` equals exactly the stored (already rounded) 75% value minus the
stored (already rounded) 25% value. -/
theorem iqr_is_q75_sub_q25 (c : Column) (r : Stats)
    (h : describeColumn c = some r) : r.iqr = r.q75 - r.q25 :=
  (describeColumn_fields c r h).2.2.2.2.2.2.2.2.1

/-- Concrete column `[1, 2, 3]` used by witnesses. -/
def colA : Column := [some 1, some 2, some 3]

/-- Statistics record the code computes for `colA`. -/
def recA : Stats :=
  ⟨3, 0, 2, some 1, some 1, some 1, 3/2, 2, 5/2, 1, some 3, 1,
    some (666667/1000000)⟩

/-- C8 witness: the column `[1, 2, 3]`. -/
theorem iqr_is_q75_sub_q25_witness : recA.iqr = recA.q75 - recA.q25 :=
  iqr_is_q75_sub_q25 colA recA (by with_unfolding_all rfl)

/-- C5: for every described column, the stored kurtosis is the mean over
the present values of `((x − mean)/std)^4` computed from the already-stored
rounded `mean` and `std` (not raw intermediates), rounded to 6 decimals; it
is stated under the precondition that the stored `std` is a number distinct
from zero. -/
theorem kurtosis_from_stored (c : Column) (r : Stats) (s : ℚ)
    (h : describeColumn c = some r) (hs : r.std = some s) (hs0 : s ≠ 0) :
    r.kurtosis = some (round6 (listMean
      ((present c).map (fun x => ((x - r.mean) / s) ^ 4)))) := by
  obtain ⟨-, hm, -, -, -, -, -, -, -, -, -, hk, -⟩ := describeColumn_fields c r h
  have hcnt : countStat c ≠ 0 := by
    intro h0
    rw [meanStat, if_pos h0] at hm
    cases hm
  rw [hs, kurtosisStat, if_neg hcnt] at hk
  rw [if_neg hs0] at hk
  rw [← Option.some.inj hk]
  congr 1
  congr 1
  have hfun : (fun x : ℚ => ((x - r.mean) / s) * ((x - r.mean) / s) *
      (((x - r.mean) / s) * ((x - r.mean) / s))) =
      (fun x : ℚ => ((x - r.mean) / s) ^ 4) := by
    funext x
    ring
  rw [hfun, listMean, List.length_map]
  rfl

/-- C5 witness: the column `[1, 2, 3]`, whose stored std is `1`. -/
theorem kurtosis_from_stored_witness :
    recA.kurtosis = some (round6 (listMean
      ((present colA).map (fun x => ((x - recA.mean) / 1) ^ 4)))) :=
  kurtosis_from_stored colA recA 1 (by with_unfolding_all rfl) rfl (by norm_num)

/-- C9: a column is selected for the report iff its declared dtype is
numeric and its name is not the label column `"Hogwarts House"`; the
selection is exactly the order-preserving filter of the table (hence a
sublist preserving table order), it is empty when no column qualifies, and
when the constructor succeeds the report's keys are exactly the selected
names in order. -/
theorem column_selection (tbl : List RawColumn) :
    (∀ col, col ∈ selectColumns tbl ↔
      col ∈ tbl ∧ col.numeric = true ∧ col.name ≠ "Hogwarts House") ∧
    selectColumns tbl =
      tbl.filter (fun col => col.numeric && col.name != "Hogwarts House") ∧
    (selectColumns tbl).Sublist tbl ∧
    ((∀ col ∈ tbl, col.numeric = false ∨ col.name = "Hogwarts House") →
      selectColumns tbl = []) ∧
    ∀ rep, describe tbl = some rep →
      rep.map Prod.fst = (selectColumns tbl).map RawColumn.name := by
  have hfilter : selectColumns tbl =
      tbl.filter (fun col => col.numeric && col.name != "Hogwarts House") := by
    rw [selectColumns, List.filter_filter]
    congr 1
    funext col
    exact Bool.and_comm _ _
  refine ⟨?_, hfilter, ?_, ?_, ?_⟩
  · intro col
    rw [hfilter, List.mem_filter]
    simp [Bool.and_eq_true, bne_iff_ne, and_assoc]
  · rw [hfilter]
    exact List.filter_sublist tbl
  · intro hnone
    rw [hfilter]
    apply List.filter_eq_nil.mpr
    intro col hc
    rcases hnone col hc with h | h
    · simp [h]
    · simp [h]
  · intro rep hrep
    exact describeCols_names _ rep hrep

/-- Concrete table used by the C9 witness. -/
def tblA : List RawColumn :=
  [⟨"Hogwarts House", true, [some 1]⟩, ⟨"Name", false, []⟩,
   ⟨"Arithmancy", true, [some 1, some 2]⟩]

/-- C9 witness: on a table with a numeric label column, a non-numeric
column and one qualifying column, the selection is the order-preserving
filter. -/
theorem column_selection_witness :
    selectColumns tblA =
      tblA.filter (fun col => col.numeric && col.name != "Hogwarts House") :=
  (column_selection tblA).2.1

/-- C4 counterexample: with a missing first entry the stored min is NaN
(the NaN seed absorbs), while the 25% quantile is the number `5`; hence the
chain `min ≤ 25%` fails — the stored min is not a number at all. -/
theorem order_chain_counterexample :
    minStat [none, some 5] = some none ∧
    quantileStat (1/4) [none, some 5] = some 5 := by
  with_unfolding_all decide

/-- C4 (amended): for every column whose first entry is present and whose
present values are exactly representable at 6 decimals, the stored
statistics satisfy `min ≤ 25% ≤ 50% ≤ 75% ≤ max` (with min/max the fold
results and each quantile the rounded interpolated value the code
stores). -/
theorem order_chain_holds (x0 : ℚ) (rest : Column)
    (hrep : ∀ x ∈ present (some x0 :: rest), round6 x = x) :
    minStat (some x0 :: rest) =
      some (some ((present (some x0 :: rest)).foldl min x0)) ∧
    maxStat (some x0 :: rest) =
      some (some ((present (some x0 :: rest)).foldl max x0)) ∧
    quantileStat (1/4) (some x0 :: rest) = some (qVal (1/4) (some x0 :: rest)) ∧
    quantileStat (1/2) (some x0 :: rest) = some (qVal (1/2) (some x0 :: rest)) ∧
    quantileStat (3/4) (some x0 :: rest) = some (qVal (3/4) (some x0 :: rest)) ∧
    (present (some x0 :: rest)).foldl min x0 ≤ qVal (1/4) (some x0 :: rest) ∧
    qVal (1/4) (some x0 :: rest) ≤ qVal (1/2) (some x0 :: rest) ∧
    qVal (1/2) (some x0 :: rest) ≤ qVal (3/4) (some x0 :: rest) ∧
    qVal (3/4) (some x0 :: rest) ≤ (present (some x0 :: rest)).foldl max x0 := by
  set c := some x0 :: rest with hc
  have hcnt : countStat c ≠ 0 := by
    rw [hc, countStat, present_cons_some]
    simp
  have hn1 : 1 ≤ countStat c := Nat.one_le_iff_ne_zero.mpr hcnt
  have hlen := sortedPresent_length c
  have hsorted := sortedPresent_sorted c
  have hperm := sortedPresent_perm c
  have hq1 := quantileStat_eq_interp (1/4) c (by norm_num) (by norm_num) hcnt
  have hq2 := quantileStat_eq_interp (1/2) c (by norm_num) (by norm_num) hcnt
  have hq3 := quantileStat_eq_interp (3/4) c (by norm_num) (by norm_num) hcnt
  obtain ⟨hv10, hv1le, -, -⟩ :=
    vIndex_bounds (v := vIdx (1/4) c) hn1 (by norm_num) (by norm_num) (vIdx_cast _ c)
  obtain ⟨hv20, hv2le, -, -⟩ :=
    vIndex_bounds (v := vIdx (1/2) c) hn1 (by norm_num) (by norm_num) (vIdx_cast _ c)
  obtain ⟨hv30, hv3le, -, -⟩ :=
    vIndex_bounds (v := vIdx (3/4) c) hn1 (by norm_num) (by norm_num) (vIdx_cast _ c)
  have hn0 : (0 : ℚ) ≤ (countStat c : ℚ) - 1 := by
    have h2 : (1 : ℚ) ≤ (countStat c : ℚ) := by exact_mod_cast hn1
    linarith
  have hv12 : vIdx (1/4) c ≤ vIdx (1/2) c := by
    rw [vIdx_cast, vIdx_cast]
    exact mul_le_mul_of_nonneg_left (by norm_num) hn0
  have hv23 : vIdx (1/2) c ≤ vIdx (3/4) c := by
    rw [vIdx_cast, vIdx_cast]
    exact mul_le_mul_of_nonneg_left (by norm_num) hn0
  have hlen1 : 1 ≤ (sortedPresent c).length := by
    rw [hlen]
    exact hn1
  have hlenQ : ((sortedPresent c).length : ℚ) - 1 = (countStat c : ℚ) - 1 := by
    rw [hlen]
  have hminEq : minStat c = some (some ((present c).foldl min x0)) := by
    rw [hc]
    show some ((some x0 :: rest).foldl minStep (some x0)) = _
    rw [foldl_minStep_eq _ x0 hrep]
  have hmaxEq : maxStat c = some (some ((present c).foldl max x0)) := by
    rw [hc]
    show some ((some x0 :: rest).foldl maxStep (some x0)) = _
    rw [foldl_maxStep_eq _ x0 hrep]
  have hheadMem : (sortedPresent c).getD 0 0 ∈ present c :=
    hperm.mem_iff.mp (getD_zero_mem hlen1)
  have hm_le_head : (present c).foldl min x0 ≤ (sortedPresent c).getD 0 0 :=
    foldl_min_le_mem x0 hheadMem
  have h1 : (present c).foldl min x0 ≤ qVal (1/4) c := by
    have hstep : interpVal (sortedPresent c) 0 ≤
        interpVal (sortedPresent c) (vIdx (1/4) c) :=
      interp_mono hsorted (le_refl 0) hv10 (by rw [hlenQ]; exact hv1le)
    have h5 : round6 (interpVal (sortedPresent c) 0) ≤ qVal (1/4) c :=
      round6_mono hstep
    rw [interp_zero, hrep _ hheadMem] at h5
    exact le_trans hm_le_head h5
  have h2 : qVal (1/4) c ≤ qVal (1/2) c :=
    round6_mono (interp_mono hsorted hv10 hv12 (by rw [hlenQ]; exact hv2le))
  have h3 : qVal (1/2) c ≤ qVal (3/4) c :=
    round6_mono (interp_mono hsorted hv20 hv23 (by rw [hlenQ]; exact hv3le))
  have hlastMem :
      (sortedPresent c).getD ((sortedPresent c).length - 1) 0 ∈ present c :=
    hperm.mem_iff.mp (getD_last_mem hlen1)
  have hlast_le_M : (sortedPresent c).getD ((sortedPresent c).length - 1) 0 ≤
      (present c).foldl max x0 :=
    foldl_max_ge_mem x0 hlastMem
  have h4 : qVal (3/4) c ≤ (present c).foldl max x0 := by
    have hstep : interpVal (sortedPresent c) (vIdx (3/4) c) ≤
        interpVal (sortedPresent c) (((sortedPresent c).length : ℚ) - 1) :=
      interp_mono hsorted hv30 (by rw [hlenQ]; exact hv3le) (le_refl _)
    have h5 : qVal (3/4) c ≤
        round6 (interpVal (sortedPresent c) (((sortedPresent c).length : ℚ) - 1)) :=
      round6_mono hstep
    rw [interp_last _ hlen1, hrep _ hlastMem] at h5
    exact le_trans h5 hlast_le_M
  exact ⟨hminEq, hmaxEq, hq1, hq2, hq3, h1, h2, h3, h4⟩

/-- C4 witness: the column `[2, NaN, 1, 3]`. -/
theorem order_chain_holds_witness :
    (present [some 2, none, some 1, some 3]).foldl min 2 ≤
      qVal (1/4) [some 2, none, some 1, some 3] :=
  (order_chain_holds 2 [none, some 1, some 3]
    (by with_unfolding_all decide)).2.2.2.2.2.1
